import Mathlib

/-!
Verification of the tree-assembler core of an element-tree XML library.

The source (`src/lib.rs`) defines the data model (`Element`, `Document`,
`XmlVersion`) and the parser `Document::parse`, which consumes the event
stream produced by the external `xml-rs` tokenizer (`EventReader::next`
yields `Result<XmlEvent, xml::reader::Error>`) and assembles a `Document`
via the recursive helper `Document::parse_children`.

Shallow embedding choices:
* the event source is a finite list of `Except XmlError XmlEvent` values,
  read front to back; reading past the end of the list stands for the
  tokenizer reporting its end-of-stream lexical error (`eofError`);
* `HashMap<String, String>` is embedded as an association list with
  unique keys; `insert` overwrites the value of an existing key in place
  and otherwise appends, which realises exactly the map (lookup)
  semantics of `HashMap::insert`;
* Rust's `panic!` in `parse_children` is a third result alternative
  (`PResult.panic`), distinct from the returned error value `PResult.err`
  that models `Err(xml::reader::Error)`;
* the recursion of `parse_children` is driven by a fuel parameter; one
  event is consumed per step, so fuel `≥` the stream length makes the
  fuel bound unreachable, and `Document.parse` supplies exactly that.
-/

namespace Treexml

/-- Embeds `xml::common::XmlVersion` restricted to the two variants the
source maps (`Version10`, `Version11`), like the repository's own
`XmlVersion` enum. -/
inductive XmlVersion where
  | Version10
  | Version11
deriving DecidableEq, Repr

/-- An XML element: embeds `struct Element`.  The Rust field `prefix` is
called `pfx` here; `attributes : HashMap<String, String>` is embedded as
a unique-key association list. -/
structure Element where
  pfx : Option String
  name : String
  attributes : List (String × String)
  children : List Element
  contents : Option String
deriving Repr

/-- An XML document: embeds `struct Document`. -/
structure Document where
  version : XmlVersion
  encoding : String
  root : Option Element
deriving Repr

/-- Embeds `impl Default for Element`: prefix `None`, name `"tag"`, empty
attributes, no children, no contents. -/
def Element.default : Element :=
  { pfx := none
    name := "tag"
    attributes := []
    children := []
    contents := none }

/-- Embeds `Element::new(name)`: `Element{name: name.into(), .. Element::default()}`. -/
def Element.new (name : String) : Element :=
  { Element.default with name := name }

/-- Embeds `impl Default for Document`: version 1.0, encoding `"UTF-8"`,
no root. -/
def Document.default : Document :=
  { version := XmlVersion.Version10
    encoding := "UTF-8"
    root := none }

/-- Embeds `Document::new()`, which is `Document{.. Document::default()}`. -/
def Document.new : Document :=
  Document.default

/-- Embeds `xml::name::OwnedName` (the namespace field, unused by the
source, is omitted): an optional prefix and a local name. -/
structure OwnedName where
  pfx : Option String
  localName : String
deriving DecidableEq, Repr

/-- Display form of an `OwnedName`, as interpolated into the source's
panic message: `prefix:local` when prefixed, else `local`. -/
def OwnedName.display (n : OwnedName) : String :=
  match n.pfx with
  | some p => p ++ ":" ++ n.localName
  | none => n.localName

/-- Embeds `xml::attribute::OwnedAttribute`: a qualified name and a value. -/
structure OwnedAttribute where
  name : OwnedName
  value : String
deriving DecidableEq, Repr

/-- Embeds `xml::reader::XmlEvent`, the event vocabulary the assembler
consumes. `processingInstruction` stands in for the remaining variants
that every `match` in the source sends to its `_ => {}` arm. -/
inductive XmlEvent where
  | startDocument (version : XmlVersion) (encoding : String)
  | endDocument
  | processingInstruction (name : String) (data : Option String)
  | startElement (name : OwnedName) (attributes : List OwnedAttribute)
  | endElement (name : OwnedName)
  | cdata (s : String)
  | comment (s : String)
  | characters (s : String)
  | whitespace (s : String)
deriving DecidableEq, Repr

/-- Embeds `xml::reader::Error` opaquely as its message. -/
structure XmlError where
  msg : String
deriving DecidableEq, Repr

/-- The lexical error the tokenizer reports when asked for an event after
its input is exhausted; reading past the end of the modelled event list
yields this. -/
def eofError : XmlError :=
  { msg := "Unexpected end of stream" }

/-- One item of the event source: `EventReader::next` returns
`Result<XmlEvent, xml::reader::Error>`. -/
abbrev REvent := Except XmlError XmlEvent

/-- Outcome of a parsing function: `ok` embeds `Ok(_)`, `err` embeds the
returned `Err(xml::reader::Error)` value, and `panic` embeds a Rust
`panic`, which is not a returned error value. -/
inductive PResult (α : Type) where
  | ok (a : α)
  | err (e : XmlError)
  | panic (msg : String)
deriving Repr

/-- The qualified key under which the assembler stores an attribute:
`format!("{}:{}", prefix, local_name)` when the attribute has a prefix,
else the local name (both `match` arms on `attr.name.prefix`). -/
def qualify (a : OwnedAttribute) : String :=
  match a.name.pfx with
  | some p => p ++ ":" ++ a.name.localName
  | none => a.name.localName

/-- Embeds `HashMap::insert(k, v)` on the association-list embedding:
overwrite the value stored at an existing key, else add the binding. -/
def insertAttr (m : List (String × String)) (k v : String) : List (String × String) :=
  if m.any (fun p => p.1 == k) then
    m.map (fun p => if p.1 == k then (k, v) else p)
  else
    m ++ [(k, v)]

/-- Embeds the attribute-map construction loop shared by
`Document::parse` and `Document::parse_children`:
`for attr in attributes { attr_map.insert(qualified_name, attr.value) }`
starting from `HashMap::new()`. -/
def buildAttrMap (attrs : List OwnedAttribute) : List (String × String) :=
  attrs.foldl (fun m a => insertAttr m (qualify a) a.value) []

/-- The `Element` both parsing functions build from a `StartElement`
event: the event's prefix and local name, the attribute map built by
`buildAttrMap`, no children, no contents. -/
def mkElem (n : OwnedName) (attrs : List OwnedAttribute) : Element :=
  { pfx := n.pfx
    name := n.localName
    attributes := buildAttrMap attrs
    children := []
    contents := none }

/-- Embeds `Document::parse_children(reader, element)`.  The reader is
the remaining event list; the result carries the assembled element and
the events left unread.  Fuel only bounds the recursion: each step
consumes one event, so any fuel `≥` the list length is enough and the
fuel-exhaustion branch coincides with reading past the end of the
stream (`eofError`). -/
def parseChildrenF : Nat → List REvent → Element → PResult (Element × List REvent)
  | 0, _, _ => PResult.err eofError
  | _ + 1, [], _ => PResult.err eofError
  | _ + 1, Except.error e :: _, _ => PResult.err e
  | fuel + 1, Except.ok ev :: rest, me =>
    match ev with
    | XmlEvent.startElement n attrs =>
      match parseChildrenF fuel rest (mkElem n attrs) with
      | PResult.ok (child, rest') =>
        parseChildrenF fuel rest' { me with children := me.children ++ [child] }
      | PResult.err e => PResult.err e
      | PResult.panic m => PResult.panic m
    | XmlEvent.endElement n =>
      if n.pfx = me.pfx ∧ n.localName = me.name then
        PResult.ok (me, rest)
      else
        PResult.panic ("Unexpected closing tag: " ++ n.display ++ ", expected " ++ me.name)
    | XmlEvent.characters s =>
      parseChildrenF fuel rest { me with contents := some (me.contents.getD "" ++ s) }
    | XmlEvent.cdata s =>
      parseChildrenF fuel rest
        { me with contents := some (me.contents.getD "" ++ "<![CDATA[" ++ s ++ "]]>") }
    | XmlEvent.whitespace _ => parseChildrenF fuel rest me
    | XmlEvent.comment _ => parseChildrenF fuel rest me
    | _ => parseChildrenF fuel rest me

/-- Embeds the `loop` of `Document::parse`: record version and encoding
from `StartDocument`, hand each `StartElement` to `parseChildrenF` and
store the assembled element as the (new) root, stop with `Ok(doc)` on
`EndDocument`, ignore everything else. -/
def parseLoopF : Nat → List REvent → Document → PResult Document
  | 0, _, _ => PResult.err eofError
  | _ + 1, [], _ => PResult.err eofError
  | _ + 1, Except.error e :: _, _ => PResult.err e
  | fuel + 1, Except.ok ev :: rest, doc =>
    match ev with
    | XmlEvent.startDocument v enc =>
      parseLoopF fuel rest { doc with version := v, encoding := enc }
    | XmlEvent.startElement n attrs =>
      match parseChildrenF fuel rest (mkElem n attrs) with
      | PResult.ok (root, rest') => parseLoopF fuel rest' { doc with root := some root }
      | PResult.err e => PResult.err e
      | PResult.panic m => PResult.panic m
    | XmlEvent.endDocument => PResult.ok doc
    | _ => parseLoopF fuel rest doc

/-- Embeds `Document::parse`, starting from `Document::new()`.  The
stream's length is enough fuel because every step consumes an event. -/
def Document.parse (events : List REvent) : PResult Document :=
  parseLoopF events.length events Document.new

/-- Recognizes the stream items the assembler keeps: everything except
successful `Whitespace` and `Comment` events, whose `match` arms in
`parse_children` are empty (`XmlEvent::Whitespace(_) => {}`,
`XmlEvent::Comment(_) => {}`). -/
def keptEvent : REvent → Bool
  | Except.error _ => true
  | Except.ok (XmlEvent.whitespace _) => false
  | Except.ok (XmlEvent.comment _) => false
  | Except.ok (XmlEvent.startDocument _ _) => true
  | Except.ok XmlEvent.endDocument => true
  | Except.ok (XmlEvent.processingInstruction _ _) => true
  | Except.ok (XmlEvent.startElement _ _) => true
  | Except.ok (XmlEvent.endElement _) => true
  | Except.ok (XmlEvent.cdata _) => true
  | Except.ok (XmlEvent.characters _) => true

/-- Applies `f` to the unread remainder of the event stream inside an
`ok` result, leaving `err` and `panic` untouched.  Used to relate runs
of the assembler on a stream and on its filtered form. -/
def mapRemaining (f : List REvent → List REvent) :
    PResult (Element × List REvent) → PResult (Element × List REvent)
  | PResult.ok (el, r) => PResult.ok (el, f r)
  | PResult.err e => PResult.err e
  | PResult.panic m => PResult.panic m

/-- The value of the last attribute in `attrs` (in arrival order) whose
qualified name is `k`, if any: the reference "last occurrence wins"
semantics for duplicate qualified attribute names. -/
def lastAttrValue (attrs : List OwnedAttribute) (k : String) : Option String :=
  (attrs.filterMap (fun a => if qualify a = k then some a.value else none)).getLast?

/-! ### Step equations

Unfolding lemmas for `parseChildrenF` and `parseLoopF`, one per shape of
the next event; all hold by `rfl`. -/

theorem stepChildren_nil (f : Nat) (me : Element) :
    parseChildrenF (f + 1) [] me = PResult.err eofError := rfl

theorem stepChildren_zero (es : List REvent) (me : Element) :
    parseChildrenF 0 es me = PResult.err eofError := rfl

theorem stepChildren_err (f : Nat) (e : XmlError) (rest : List REvent) (me : Element) :
    parseChildrenF (f + 1) (Except.error e :: rest) me = PResult.err e := rfl

theorem stepChildren_start (f : Nat) (n : OwnedName) (attrs : List OwnedAttribute)
    (rest : List REvent) (me : Element) :
    parseChildrenF (f + 1) (Except.ok (XmlEvent.startElement n attrs) :: rest) me =
      match parseChildrenF f rest (mkElem n attrs) with
      | PResult.ok (child, rest') =>
        parseChildrenF f rest' { me with children := me.children ++ [child] }
      | PResult.err e => PResult.err e
      | PResult.panic m => PResult.panic m := rfl

theorem stepChildren_end (f : Nat) (n : OwnedName) (rest : List REvent) (me : Element) :
    parseChildrenF (f + 1) (Except.ok (XmlEvent.endElement n) :: rest) me =
      if n.pfx = me.pfx ∧ n.localName = me.name then
        PResult.ok (me, rest)
      else
        PResult.panic ("Unexpected closing tag: " ++ n.display ++ ", expected " ++ me.name) := rfl

theorem stepChildren_chars (f : Nat) (s : String) (rest : List REvent) (me : Element) :
    parseChildrenF (f + 1) (Except.ok (XmlEvent.characters s) :: rest) me =
      parseChildrenF f rest { me with contents := some (me.contents.getD "" ++ s) } := rfl

theorem stepChildren_cdata (f : Nat) (s : String) (rest : List REvent) (me : Element) :
    parseChildrenF (f + 1) (Except.ok (XmlEvent.cdata s) :: rest) me =
      parseChildrenF f rest
        { me with contents := some (me.contents.getD "" ++ "<![CDATA[" ++ s ++ "]]>") } := rfl

theorem stepChildren_ws (f : Nat) (s : String) (rest : List REvent) (me : Element) :
    parseChildrenF (f + 1) (Except.ok (XmlEvent.whitespace s) :: rest) me =
      parseChildrenF f rest me := rfl

theorem stepChildren_comment (f : Nat) (s : String) (rest : List REvent) (me : Element) :
    parseChildrenF (f + 1) (Except.ok (XmlEvent.comment s) :: rest) me =
      parseChildrenF f rest me := rfl

theorem stepChildren_startDoc (f : Nat) (v : XmlVersion) (enc : String)
    (rest : List REvent) (me : Element) :
    parseChildrenF (f + 1) (Except.ok (XmlEvent.startDocument v enc) :: rest) me =
      parseChildrenF f rest me := rfl

theorem stepChildren_endDoc (f : Nat) (rest : List REvent) (me : Element) :
    parseChildrenF (f + 1) (Except.ok XmlEvent.endDocument :: rest) me =
      parseChildrenF f rest me := rfl

theorem stepChildren_pi (f : Nat) (nm : String) (d : Option String)
    (rest : List REvent) (me : Element) :
    parseChildrenF (f + 1) (Except.ok (XmlEvent.processingInstruction nm d) :: rest) me =
      parseChildrenF f rest me := rfl

theorem stepLoop_nil (f : Nat) (doc : Document) :
    parseLoopF (f + 1) [] doc = PResult.err eofError := rfl

theorem stepLoop_zero (es : List REvent) (doc : Document) :
    parseLoopF 0 es doc = PResult.err eofError := rfl

theorem stepLoop_err (f : Nat) (e : XmlError) (rest : List REvent) (doc : Document) :
    parseLoopF (f + 1) (Except.error e :: rest) doc = PResult.err e := rfl

theorem stepLoop_startDoc (f : Nat) (v : XmlVersion) (enc : String)
    (rest : List REvent) (doc : Document) :
    parseLoopF (f + 1) (Except.ok (XmlEvent.startDocument v enc) :: rest) doc =
      parseLoopF f rest { doc with version := v, encoding := enc } := rfl

theorem stepLoop_start (f : Nat) (n : OwnedName) (attrs : List OwnedAttribute)
    (rest : List REvent) (doc : Document) :
    parseLoopF (f + 1) (Except.ok (XmlEvent.startElement n attrs) :: rest) doc =
      match parseChildrenF f rest (mkElem n attrs) with
      | PResult.ok (root, rest') => parseLoopF f rest' { doc with root := some root }
      | PResult.err e => PResult.err e
      | PResult.panic m => PResult.panic m := rfl

theorem stepLoop_endDoc (f : Nat) (rest : List REvent) (doc : Document) :
    parseLoopF (f + 1) (Except.ok XmlEvent.endDocument :: rest) doc = PResult.ok doc := rfl

theorem stepLoop_end (f : Nat) (n : OwnedName) (rest : List REvent) (doc : Document) :
    parseLoopF (f + 1) (Except.ok (XmlEvent.endElement n) :: rest) doc =
      parseLoopF f rest doc := rfl

theorem stepLoop_chars (f : Nat) (s : String) (rest : List REvent) (doc : Document) :
    parseLoopF (f + 1) (Except.ok (XmlEvent.characters s) :: rest) doc =
      parseLoopF f rest doc := rfl

theorem stepLoop_cdata (f : Nat) (s : String) (rest : List REvent) (doc : Document) :
    parseLoopF (f + 1) (Except.ok (XmlEvent.cdata s) :: rest) doc =
      parseLoopF f rest doc := rfl

theorem stepLoop_ws (f : Nat) (s : String) (rest : List REvent) (doc : Document) :
    parseLoopF (f + 1) (Except.ok (XmlEvent.whitespace s) :: rest) doc =
      parseLoopF f rest doc := rfl

theorem stepLoop_comment (f : Nat) (s : String) (rest : List REvent) (doc : Document) :
    parseLoopF (f + 1) (Except.ok (XmlEvent.comment s) :: rest) doc =
      parseLoopF f rest doc := rfl

theorem stepLoop_pi (f : Nat) (nm : String) (d : Option String)
    (rest : List REvent) (doc : Document) :
    parseLoopF (f + 1) (Except.ok (XmlEvent.processingInstruction nm d) :: rest) doc =
      parseLoopF f rest doc := rfl

end Treexml

/-! ### Structural lemmas about the assembler's recursion -/

namespace Treexml

theorem parseChildrenF_ok_suffix :
    ∀ (fuel : Nat) (es : List REvent) (me el : Element) (r : List REvent),
      parseChildrenF fuel es me = PResult.ok (el, r) →
      ∃ pre, pre ≠ [] ∧ es = pre ++ r := by
  intro fuel
  induction fuel with
  | zero =>
    intro es me el r h
    rw [stepChildren_zero] at h
    exact absurd h (by simp)
  | succ f ih =>
    intro es me el r h
    match es with
    | [] => rw [stepChildren_nil] at h; exact absurd h (by simp)
    | Except.error e :: rest => rw [stepChildren_err] at h; exact absurd h (by simp)
    | Except.ok ev :: rest =>
      cases ev with
      | startElement n attrs =>
        rw [stepChildren_start] at h
        cases hnest : parseChildrenF f rest (mkElem n attrs) with
        | ok p =>
          obtain ⟨child, rest'⟩ := p
          rw [hnest] at h
          obtain ⟨p1, hp1, hrest⟩ := ih rest (mkElem n attrs) child rest' hnest
          obtain ⟨p2, hp2, hrest'⟩ := ih rest' _ el r h
          refine ⟨Except.ok (XmlEvent.startElement n attrs) :: (p1 ++ p2), by simp, ?_⟩
          simp [hrest, hrest']
        | err e => rw [hnest] at h; exact absurd h (by simp)
        | panic m => rw [hnest] at h; exact absurd h (by simp)
      | endElement n =>
        rw [stepChildren_end] at h
        split at h
        · cases h
          exact ⟨[Except.ok (XmlEvent.endElement n)], by simp, by simp⟩
        · exact absurd h (by simp)
      | characters s =>
        rw [stepChildren_chars] at h
        obtain ⟨p, hp, hrest⟩ := ih rest _ el r h
        exact ⟨Except.ok (XmlEvent.characters s) :: p, by simp, by simp [hrest]⟩
      | cdata s =>
        rw [stepChildren_cdata] at h
        obtain ⟨p, hp, hrest⟩ := ih rest _ el r h
        exact ⟨Except.ok (XmlEvent.cdata s) :: p, by simp, by simp [hrest]⟩
      | whitespace s =>
        rw [stepChildren_ws] at h
        obtain ⟨p, hp, hrest⟩ := ih rest _ el r h
        exact ⟨Except.ok (XmlEvent.whitespace s) :: p, by simp, by simp [hrest]⟩
      | comment s =>
        rw [stepChildren_comment] at h
        obtain ⟨p, hp, hrest⟩ := ih rest _ el r h
        exact ⟨Except.ok (XmlEvent.comment s) :: p, by simp, by simp [hrest]⟩
      | startDocument v enc =>
        rw [stepChildren_startDoc] at h
        obtain ⟨p, hp, hrest⟩ := ih rest _ el r h
        exact ⟨Except.ok (XmlEvent.startDocument v enc) :: p, by simp, by simp [hrest]⟩
      | endDocument =>
        rw [stepChildren_endDoc] at h
        obtain ⟨p, hp, hrest⟩ := ih rest _ el r h
        exact ⟨Except.ok XmlEvent.endDocument :: p, by simp, by simp [hrest]⟩
      | processingInstruction nm d =>
        rw [stepChildren_pi] at h
        obtain ⟨p, hp, hrest⟩ := ih rest _ el r h
        exact ⟨Except.ok (XmlEvent.processingInstruction nm d) :: p, by simp, by simp [hrest]⟩

theorem parseChildrenF_ok_length {fuel : Nat} {es : List REvent} {me el : Element}
    {r : List REvent} (h : parseChildrenF fuel es me = PResult.ok (el, r)) :
    r.length < es.length := by
  obtain ⟨pre, hpre, rfl⟩ := parseChildrenF_ok_suffix fuel es me el r h
  have : 0 < pre.length := List.length_pos.mpr hpre
  simp [List.length_append]
  omega


theorem parseChildrenF_fuel_succ :
    ∀ (fuel : Nat) (es : List REvent) (me : Element), es.length ≤ fuel →
      parseChildrenF (fuel + 1) es me = parseChildrenF fuel es me := by
  intro fuel
  induction fuel with
  | zero =>
    intro es me h
    have : es = [] := List.length_eq_zero.mp (Nat.le_zero.mp h)
    subst this
    rfl
  | succ f ih =>
    intro es me h
    match es with
    | [] => rfl
    | Except.error e :: rest => rfl
    | Except.ok ev :: rest =>
      have hr : rest.length ≤ f := by simpa using h
      cases ev with
      | startElement n attrs =>
        rw [stepChildren_start, stepChildren_start, ih rest (mkElem n attrs) hr]
        cases hnest : parseChildrenF f rest (mkElem n attrs) with
        | ok p =>
          obtain ⟨child, rest'⟩ := p
          have : rest'.length ≤ f :=
            le_trans (Nat.le_of_lt (parseChildrenF_ok_length hnest)) hr
          simp only []
          rw [ih rest' _ this]
        | err e => rfl
        | panic m => rfl
      | endElement n => rfl
      | characters s => rw [stepChildren_chars, stepChildren_chars, ih rest _ hr]
      | cdata s => rw [stepChildren_cdata, stepChildren_cdata, ih rest _ hr]
      | whitespace s => rw [stepChildren_ws, stepChildren_ws, ih rest _ hr]
      | comment s => rw [stepChildren_comment, stepChildren_comment, ih rest _ hr]
      | startDocument v enc => rw [stepChildren_startDoc, stepChildren_startDoc, ih rest _ hr]
      | endDocument => rw [stepChildren_endDoc, stepChildren_endDoc, ih rest _ hr]
      | processingInstruction nm d => rw [stepChildren_pi, stepChildren_pi, ih rest _ hr]

theorem parseChildrenF_fuel_ge {f₁ f₂ : Nat} (es : List REvent) (me : Element)
    (h1 : es.length ≤ f₁) (h12 : f₁ ≤ f₂) :
    parseChildrenF f₂ es me = parseChildrenF f₁ es me := by
  induction f₂, h12 using Nat.le_induction with
  | base => rfl
  | succ n hn ihn => rw [parseChildrenF_fuel_succ n es me (le_trans h1 hn), ihn]

theorem parseLoopF_fuel_succ :
    ∀ (fuel : Nat) (es : List REvent) (doc : Document), es.length ≤ fuel →
      parseLoopF (fuel + 1) es doc = parseLoopF fuel es doc := by
  intro fuel
  induction fuel with
  | zero =>
    intro es doc h
    have : es = [] := List.length_eq_zero.mp (Nat.le_zero.mp h)
    subst this
    rfl
  | succ f ih =>
    intro es doc h
    match es with
    | [] => rfl
    | Except.error e :: rest => rfl
    | Except.ok ev :: rest =>
      have hr : rest.length ≤ f := by simpa using h
      cases ev with
      | startElement n attrs =>
        rw [stepLoop_start, stepLoop_start, parseChildrenF_fuel_succ f rest (mkElem n attrs) hr]
        cases hnest : parseChildrenF f rest (mkElem n attrs) with
        | ok p =>
          obtain ⟨root, rest'⟩ := p
          have : rest'.length ≤ f :=
            le_trans (Nat.le_of_lt (parseChildrenF_ok_length hnest)) hr
          simp only []
          rw [ih rest' _ this]
        | err e => rfl
        | panic m => rfl
      | startDocument v enc => rw [stepLoop_startDoc, stepLoop_startDoc, ih rest _ hr]
      | endDocument => rfl
      | endElement n => rw [stepLoop_end, stepLoop_end, ih rest _ hr]
      | characters s => rw [stepLoop_chars, stepLoop_chars, ih rest _ hr]
      | cdata s => rw [stepLoop_cdata, stepLoop_cdata, ih rest _ hr]
      | whitespace s => rw [stepLoop_ws, stepLoop_ws, ih rest _ hr]
      | comment s => rw [stepLoop_comment, stepLoop_comment, ih rest _ hr]
      | processingInstruction nm d => rw [stepLoop_pi, stepLoop_pi, ih rest _ hr]

theorem parseLoopF_fuel_ge {f₁ f₂ : Nat} (es : List REvent) (doc : Document)
    (h1 : es.length ≤ f₁) (h12 : f₁ ≤ f₂) :
    parseLoopF f₂ es doc = parseLoopF f₁ es doc := by
  induction f₂, h12 using Nat.le_induction with
  | base => rfl
  | succ n hn ihn => rw [parseLoopF_fuel_succ n es doc (le_trans h1 hn), ihn]

end Treexml

/-! ### Dropped events: whitespace and comments never affect the result -/

namespace Treexml

theorem parseChildrenF_filter :
    ∀ (fuel : Nat) (es : List REvent) (me : Element), es.length ≤ fuel →
      parseChildrenF fuel (es.filter keptEvent) me =
        mapRemaining (fun r => r.filter keptEvent) (parseChildrenF fuel es me) := by
  intro fuel
  induction fuel with
  | zero =>
    intro es me h
    have : es = [] := List.length_eq_zero.mp (Nat.le_zero.mp h)
    subst this
    rfl
  | succ f ih =>
    intro es me h
    match es with
    | [] => rfl
    | Except.error e :: rest =>
      simp only [List.filter_cons, keptEvent, if_pos, reduceIte]
      rfl
    | Except.ok ev :: rest =>
      have hr : rest.length ≤ f := by simpa using h
      have hfr : (rest.filter keptEvent).length ≤ f :=
        le_trans (List.length_filter_le _ _) hr
      cases ev with
      | whitespace s =>
        simp only [List.filter_cons, keptEvent, Bool.false_eq_true, if_false]
        rw [stepChildren_ws, parseChildrenF_fuel_succ f _ me hfr]
        exact ih rest me hr
      | comment s =>
        simp only [List.filter_cons, keptEvent, Bool.false_eq_true, if_false]
        rw [stepChildren_comment, parseChildrenF_fuel_succ f _ me hfr]
        exact ih rest me hr
      | startElement n attrs =>
        simp only [List.filter_cons, keptEvent, reduceIte]
        rw [stepChildren_start, stepChildren_start, ih rest (mkElem n attrs) hr]
        cases hnest : parseChildrenF f rest (mkElem n attrs) with
        | ok p =>
          obtain ⟨child, r⟩ := p
          have : r.length ≤ f :=
            le_trans (Nat.le_of_lt (parseChildrenF_ok_length hnest)) hr
          simp only [mapRemaining]
          exact ih r _ this
        | err e => rfl
        | panic m => rfl
      | endElement n =>
        simp only [List.filter_cons, keptEvent, reduceIte]
        rw [stepChildren_end, stepChildren_end]
        split <;> rfl
      | characters s =>
        simp only [List.filter_cons, keptEvent, reduceIte]
        rw [stepChildren_chars, stepChildren_chars]
        exact ih rest _ hr
      | cdata s =>
        simp only [List.filter_cons, keptEvent, reduceIte]
        rw [stepChildren_cdata, stepChildren_cdata]
        exact ih rest _ hr
      | startDocument v enc =>
        simp only [List.filter_cons, keptEvent, reduceIte]
        rw [stepChildren_startDoc, stepChildren_startDoc]
        exact ih rest _ hr
      | endDocument =>
        simp only [List.filter_cons, keptEvent, reduceIte]
        rw [stepChildren_endDoc, stepChildren_endDoc]
        exact ih rest _ hr
      | processingInstruction nm d =>
        simp only [List.filter_cons, keptEvent, reduceIte]
        rw [stepChildren_pi, stepChildren_pi]
        exact ih rest _ hr


theorem parseLoopF_filter :
    ∀ (fuel : Nat) (es : List REvent) (doc : Document), es.length ≤ fuel →
      parseLoopF fuel (es.filter keptEvent) doc = parseLoopF fuel es doc := by
  intro fuel
  induction fuel with
  | zero =>
    intro es doc h
    have : es = [] := List.length_eq_zero.mp (Nat.le_zero.mp h)
    subst this
    rfl
  | succ f ih =>
    intro es doc h
    match es with
    | [] => rfl
    | Except.error e :: rest =>
      simp only [List.filter_cons, keptEvent, reduceIte]
      rfl
    | Except.ok ev :: rest =>
      have hr : rest.length ≤ f := by simpa using h
      have hfr : (rest.filter keptEvent).length ≤ f :=
        le_trans (List.length_filter_le _ _) hr
      cases ev with
      | whitespace s =>
        simp only [List.filter_cons, keptEvent, Bool.false_eq_true, if_false]
        rw [stepLoop_ws, parseLoopF_fuel_succ f _ doc hfr]
        exact ih rest doc hr
      | comment s =>
        simp only [List.filter_cons, keptEvent, Bool.false_eq_true, if_false]
        rw [stepLoop_comment, parseLoopF_fuel_succ f _ doc hfr]
        exact ih rest doc hr
      | startElement n attrs =>
        simp only [List.filter_cons, keptEvent, reduceIte]
        rw [stepLoop_start, stepLoop_start, parseChildrenF_filter f rest (mkElem n attrs) hr]
        cases hnest : parseChildrenF f rest (mkElem n attrs) with
        | ok p =>
          obtain ⟨root, r⟩ := p
          have : r.length ≤ f :=
            le_trans (Nat.le_of_lt (parseChildrenF_ok_length hnest)) hr
          simp only [mapRemaining]
          exact ih r _ this
        | err e => rfl
        | panic m => rfl
      | endElement n =>
        simp only [List.filter_cons, keptEvent, reduceIte]
        rw [stepLoop_end, stepLoop_end]
        exact ih rest _ hr
      | characters s =>
        simp only [List.filter_cons, keptEvent, reduceIte]
        rw [stepLoop_chars, stepLoop_chars]
        exact ih rest _ hr
      | cdata s =>
        simp only [List.filter_cons, keptEvent, reduceIte]
        rw [stepLoop_cdata, stepLoop_cdata]
        exact ih rest _ hr
      | startDocument v enc =>
        simp only [List.filter_cons, keptEvent, reduceIte]
        rw [stepLoop_startDoc, stepLoop_startDoc]
        exact ih rest _ hr
      | endDocument =>
        simp only [List.filter_cons, keptEvent, reduceIte]
        rfl
      | processingInstruction nm d =>
        simp only [List.filter_cons, keptEvent, reduceIte]
        rw [stepLoop_pi, stepLoop_pi]
        exact ih rest _ hr

theorem parse_filter_eq (es : List REvent) :
    Document.parse (es.filter keptEvent) = Document.parse es := by
  unfold Document.parse
  rw [← parseLoopF_fuel_ge (es.filter keptEvent) Document.new
        (le_refl _) (List.length_filter_le _ _)]
  exact parseLoopF_filter es.length es Document.new (le_refl _)

end Treexml

/-! ### Lexical errors propagate verbatim -/

namespace Treexml

theorem parseChildrenF_err_mem :
    ∀ (fuel : Nat) (es : List REvent) (me : Element) (e : XmlError),
      parseChildrenF fuel es me = PResult.err e →
      Except.error e ∈ es ∨ e = eofError := by
  intro fuel
  induction fuel with
  | zero =>
    intro es me e h
    rw [stepChildren_zero] at h
    cases h
    exact Or.inr rfl
  | succ f ih =>
    intro es me e h
    match es with
    | [] =>
      rw [stepChildren_nil] at h
      cases h
      exact Or.inr rfl
    | Except.error e' :: rest =>
      rw [stepChildren_err] at h
      cases h
      exact Or.inl (List.mem_cons_self _ _)
    | Except.ok ev :: rest =>
      cases ev with
      | startElement n attrs =>
        rw [stepChildren_start] at h
        cases hnest : parseChildrenF f rest (mkElem n attrs) with
        | ok p =>
          obtain ⟨child, rest'⟩ := p
          rw [hnest] at h
          obtain ⟨pre, hpre, hsuf⟩ :=
            parseChildrenF_ok_suffix f rest (mkElem n attrs) child rest' hnest
          cases ih rest' _ e h with
          | inl hm => exact Or.inl (List.mem_cons_of_mem _ (hsuf ▸ List.mem_append_right pre hm))
          | inr he => exact Or.inr he
        | err e' =>
          rw [hnest] at h
          cases h
          cases ih rest _ e hnest with
          | inl hm => exact Or.inl (List.mem_cons_of_mem _ hm)
          | inr he => exact Or.inr he
        | panic m =>
          rw [hnest] at h
          cases h
      | endElement n =>
        rw [stepChildren_end] at h
        split at h <;> cases h
      | characters s =>
        rw [stepChildren_chars] at h
        cases ih rest _ e h with
        | inl hm => exact Or.inl (List.mem_cons_of_mem _ hm)
        | inr he => exact Or.inr he
      | cdata s =>
        rw [stepChildren_cdata] at h
        cases ih rest _ e h with
        | inl hm => exact Or.inl (List.mem_cons_of_mem _ hm)
        | inr he => exact Or.inr he
      | whitespace s =>
        rw [stepChildren_ws] at h
        cases ih rest _ e h with
        | inl hm => exact Or.inl (List.mem_cons_of_mem _ hm)
        | inr he => exact Or.inr he
      | comment s =>
        rw [stepChildren_comment] at h
        cases ih rest _ e h with
        | inl hm => exact Or.inl (List.mem_cons_of_mem _ hm)
        | inr he => exact Or.inr he
      | startDocument v enc =>
        rw [stepChildren_startDoc] at h
        cases ih rest _ e h with
        | inl hm => exact Or.inl (List.mem_cons_of_mem _ hm)
        | inr he => exact Or.inr he
      | endDocument =>
        rw [stepChildren_endDoc] at h
        cases ih rest _ e h with
        | inl hm => exact Or.inl (List.mem_cons_of_mem _ hm)
        | inr he => exact Or.inr he
      | processingInstruction nm d =>
        rw [stepChildren_pi] at h
        cases ih rest _ e h with
        | inl hm => exact Or.inl (List.mem_cons_of_mem _ hm)
        | inr he => exact Or.inr he

theorem parseLoopF_err_mem :
    ∀ (fuel : Nat) (es : List REvent) (doc : Document) (e : XmlError),
      parseLoopF fuel es doc = PResult.err e →
      Except.error e ∈ es ∨ e = eofError := by
  intro fuel
  induction fuel with
  | zero =>
    intro es doc e h
    rw [stepLoop_zero] at h
    cases h
    exact Or.inr rfl
  | succ f ih =>
    intro es doc e h
    match es with
    | [] =>
      rw [stepLoop_nil] at h
      cases h
      exact Or.inr rfl
    | Except.error e' :: rest =>
      rw [stepLoop_err] at h
      cases h
      exact Or.inl (List.mem_cons_self _ _)
    | Except.ok ev :: rest =>
      cases ev with
      | startElement n attrs =>
        rw [stepLoop_start] at h
        cases hnest : parseChildrenF f rest (mkElem n attrs) with
        | ok p =>
          obtain ⟨root, rest'⟩ := p
          rw [hnest] at h
          obtain ⟨pre, hpre, hsuf⟩ :=
            parseChildrenF_ok_suffix f rest (mkElem n attrs) root rest' hnest
          cases ih rest' _ e h with
          | inl hm => exact Or.inl (List.mem_cons_of_mem _ (hsuf ▸ List.mem_append_right pre hm))
          | inr he => exact Or.inr he
        | err e' =>
          rw [hnest] at h
          cases h
          cases parseChildrenF_err_mem f rest _ e hnest with
          | inl hm => exact Or.inl (List.mem_cons_of_mem _ hm)
          | inr he => exact Or.inr he
        | panic m =>
          rw [hnest] at h
          cases h
      | startDocument v enc =>
        rw [stepLoop_startDoc] at h
        cases ih rest _ e h with
        | inl hm => exact Or.inl (List.mem_cons_of_mem _ hm)
        | inr he => exact Or.inr he
      | endDocument =>
        rw [stepLoop_endDoc] at h
        cases h
      | endElement n =>
        rw [stepLoop_end] at h
        cases ih rest _ e h with
        | inl hm => exact Or.inl (List.mem_cons_of_mem _ hm)
        | inr he => exact Or.inr he
      | characters s =>
        rw [stepLoop_chars] at h
        cases ih rest _ e h with
        | inl hm => exact Or.inl (List.mem_cons_of_mem _ hm)
        | inr he => exact Or.inr he
      | cdata s =>
        rw [stepLoop_cdata] at h
        cases ih rest _ e h with
        | inl hm => exact Or.inl (List.mem_cons_of_mem _ hm)
        | inr he => exact Or.inr he
      | whitespace s =>
        rw [stepLoop_ws] at h
        cases ih rest _ e h with
        | inl hm => exact Or.inl (List.mem_cons_of_mem _ hm)
        | inr he => exact Or.inr he
      | comment s =>
        rw [stepLoop_comment] at h
        cases ih rest _ e h with
        | inl hm => exact Or.inl (List.mem_cons_of_mem _ hm)
        | inr he => exact Or.inr he
      | processingInstruction nm d =>
        rw [stepLoop_pi] at h
        cases ih rest _ e h with
        | inl hm => exact Or.inl (List.mem_cons_of_mem _ hm)
        | inr he => exact Or.inr he

end Treexml

/-! ### Attribute map: qualified keys and last-write-wins -/

namespace Treexml

theorem lookup_mapUpdate_ne (m : List (String × String)) (k v k' : String) (h : k' ≠ k) :
    List.lookup k' (m.map (fun p => if p.1 == k then (k, v) else p)) = List.lookup k' m := by
  induction m with
  | nil => rfl
  | cons p m' ih =>
    obtain ⟨a, b⟩ := p
    by_cases hak : a = k
    · subst hak
      rw [List.map_cons, if_pos (by simp), List.lookup_cons, List.lookup_cons]
      have h2 : (k' == a) = false := beq_eq_false_iff_ne.mpr h
      simp only [h2, ih]
    · rw [List.map_cons, if_neg (by simpa using hak), List.lookup_cons, List.lookup_cons]
      cases hk : k' == a
      · simp only [ih]
      · rfl

theorem lookup_mapUpdate_self (m : List (String × String)) (k v : String)
    (h : ∃ p ∈ m, p.1 = k) :
    List.lookup k (m.map (fun p => if p.1 == k then (k, v) else p)) = some v := by
  induction m with
  | nil => simp at h
  | cons p m' ih =>
    obtain ⟨a, b⟩ := p
    by_cases hak : a = k
    · subst hak
      rw [List.map_cons, if_pos (by simp), List.lookup_cons]
      simp
    · have h' : ∃ p ∈ m', p.1 = k := by
        rcases h with ⟨q, hq, hqk⟩
        rcases List.mem_cons.mp hq with rfl | hq'
        · exact absurd hqk hak
        · exact ⟨q, hq', hqk⟩
      rw [List.map_cons, if_neg (by simpa using hak), List.lookup_cons]
      have h2 : (k == a) = false := beq_eq_false_iff_ne.mpr (fun hc => hak hc.symm)
      simp only [h2, ih h']

theorem lookup_eq_none_of_no_key (m : List (String × String)) (k : String)
    (h : ∀ p ∈ m, p.1 ≠ k) :
    List.lookup k m = none := by
  induction m with
  | nil => rfl
  | cons p m' ih =>
    obtain ⟨a, b⟩ := p
    have ha : a ≠ k := h (a, b) (List.mem_cons_self _ _)
    have h' : ∀ p ∈ m', p.1 ≠ k := fun q hq => h q (List.mem_cons_of_mem _ hq)
    rw [List.lookup_cons]
    have h2 : (k == a) = false := beq_eq_false_iff_ne.mpr (fun hc => ha hc.symm)
    simp only [h2, ih h']

theorem lookup_append_single (m : List (String × String)) (k v k' : String) :
    List.lookup k' (m ++ [(k, v)]) =
      match List.lookup k' m with
      | some w => some w
      | none => if k' = k then some v else none := by
  induction m with
  | nil =>
    rw [List.nil_append, List.lookup_nil, List.lookup_cons]
    by_cases h : k' = k
    · subst h
      simp
    · have h2 : (k' == k) = false := beq_eq_false_iff_ne.mpr h
      simp [h2, h]
  | cons p m' ih =>
    obtain ⟨a, b⟩ := p
    rw [List.cons_append, List.lookup_cons, List.lookup_cons]
    cases hk : k' == a
    · simp only [ih]
    · rfl

theorem lookup_insertAttr (m : List (String × String)) (k v k' : String) :
    List.lookup k' (insertAttr m k v) = if k' = k then some v else List.lookup k' m := by
  unfold insertAttr
  by_cases hany : m.any (fun p => p.1 == k)
  · rw [if_pos hany]
    have hex : ∃ p ∈ m, p.1 = k := by
      rcases List.any_eq_true.mp hany with ⟨p, hp, hpk⟩
      exact ⟨p, hp, by simpa using hpk⟩
    by_cases h : k' = k
    · subst h
      rw [lookup_mapUpdate_self m k' v hex, if_pos rfl]
    · rw [lookup_mapUpdate_ne m k v k' h, if_neg h]
  · rw [if_neg hany]
    have hno : ∀ p ∈ m, p.1 ≠ k := by
      intro p hp hpk
      exact hany (List.any_eq_true.mpr ⟨p, hp, by simpa using hpk⟩)
    rw [lookup_append_single]
    by_cases h : k' = k
    · subst h
      rw [lookup_eq_none_of_no_key m k' hno]
    · cases List.lookup k' m <;> simp [h]

theorem buildAttrMap_concat (as : List OwnedAttribute) (a : OwnedAttribute) :
    buildAttrMap (as ++ [a]) = insertAttr (buildAttrMap as) (qualify a) a.value := by
  simp [buildAttrMap, List.foldl_append]

theorem lastAttrValue_concat (as : List OwnedAttribute) (a : OwnedAttribute) (k : String) :
    lastAttrValue (as ++ [a]) k =
      if qualify a = k then some a.value else lastAttrValue as k := by
  unfold lastAttrValue
  rw [List.filterMap_append]
  by_cases h : qualify a = k
  · simp [h]
  · simp [h]

theorem lookup_buildAttrMap (attrs : List OwnedAttribute) (k : String) :
    List.lookup k (buildAttrMap attrs) = lastAttrValue attrs k := by
  induction attrs using List.reverseRecOn with
  | nil => rfl
  | append_singleton as a ih =>
    rw [buildAttrMap_concat, lastAttrValue_concat, lookup_insertAttr]
    by_cases h : qualify a = k
    · rw [if_pos h, if_pos h.symm]
    · rw [if_neg h, if_neg (fun hc => h hc.symm), ih]

end Treexml

/-! ### The claims -/

namespace Treexml

/-- C10: `Element::new(name)` returns an `Element` with exactly the given
name, prefix `None`, empty attribute map, empty children, contents
`None`; `Element::default()` has the same shape with name `"tag"`, a
non-empty placeholder. -/
theorem claim_C10_element_new_default (n : String) :
    Element.new n =
      { pfx := none, name := n, attributes := [], children := [], contents := none } ∧
    Element.default =
      { pfx := none, name := "tag", attributes := [], children := [], contents := none } ∧
    Element.default.name ≠ "" :=
  ⟨rfl, rfl, by decide⟩

/-- C2: parsing the event stream of `<fruit type="apple">worm</fruit>`
succeeds with root element `fruit`, no prefix, the single attribute
`type -> "apple"`, contents `"worm"`, and no children. -/
theorem claim_C2_attribute_fidelity :
    Document.parse
        [Except.ok (XmlEvent.startDocument XmlVersion.Version10 "UTF-8"),
         Except.ok (XmlEvent.startElement ⟨none, "fruit"⟩ [⟨⟨none, "type"⟩, "apple"⟩]),
         Except.ok (XmlEvent.characters "worm"),
         Except.ok (XmlEvent.endElement ⟨none, "fruit"⟩),
         Except.ok XmlEvent.endDocument] =
      PResult.ok
        { version := XmlVersion.Version10
          encoding := "UTF-8"
          root := some
            { pfx := none, name := "fruit", attributes := [("type", "apple")],
              children := [], contents := some "worm" } } := rfl

/-- C3: on an `ElementEnd` event, the assembler returns the open element
`me` to its caller exactly when the event's (prefix, local name) equals
`me`'s (prefix, name); on a mismatch it panics (and never produces a
returned error value from this event). -/
theorem claim_C3_end_element_match (fuel : Nat) (n : OwnedName) (rest : List REvent)
    (me : Element) :
    (parseChildrenF (fuel + 1) (Except.ok (XmlEvent.endElement n) :: rest) me =
        PResult.ok (me, rest) ↔ n.pfx = me.pfx ∧ n.localName = me.name) ∧
    (¬(n.pfx = me.pfx ∧ n.localName = me.name) →
      parseChildrenF (fuel + 1) (Except.ok (XmlEvent.endElement n) :: rest) me =
        PResult.panic ("Unexpected closing tag: " ++ n.display ++ ", expected " ++ me.name)) ∧
    ∀ e : XmlError,
      parseChildrenF (fuel + 1) (Except.ok (XmlEvent.endElement n) :: rest) me ≠
        PResult.err e := by
  rw [stepChildren_end]
  by_cases h : n.pfx = me.pfx ∧ n.localName = me.name
  · rw [if_pos h]
    exact ⟨Iff.intro (fun _ => h) (fun _ => rfl), fun hc => absurd h hc,
      fun e hc => by cases hc⟩
  · rw [if_neg h]
    exact ⟨Iff.intro (fun hc => by cases hc) (fun hc => absurd hc h), fun _ => rfl,
      fun e hc => by cases hc⟩

/-- C3 witness: a concrete mismatching close tag panics. -/
theorem claim_C3_end_element_match_witness :
    parseChildrenF 1 [Except.ok (XmlEvent.endElement ⟨none, "b"⟩)] (Element.new "a") =
      PResult.panic ("Unexpected closing tag: " ++ OwnedName.display ⟨none, "b"⟩ ++
        ", expected " ++ (Element.new "a").name) :=
  (claim_C3_end_element_match 0 ⟨none, "b"⟩ [] (Element.new "a")).2.1 (by decide)

/-- C4: a `Text` event appends its string to the open element's
contents, initializing absent contents to the empty string, and two
consecutive `Text` events concatenate in arrival order. -/
theorem claim_C4_text_accumulation (fuel : Nat) (s s₁ s₂ : String) (rest : List REvent)
    (me : Element) :
    parseChildrenF (fuel + 1) (Except.ok (XmlEvent.characters s) :: rest) me =
      parseChildrenF fuel rest { me with contents := some (me.contents.getD "" ++ s) } ∧
    (me.contents = none →
      parseChildrenF (fuel + 1) (Except.ok (XmlEvent.characters s) :: rest) me =
        parseChildrenF fuel rest { me with contents := some ("" ++ s) }) ∧
    parseChildrenF (fuel + 2)
        (Except.ok (XmlEvent.characters s₁) :: Except.ok (XmlEvent.characters s₂) :: rest) me =
      parseChildrenF fuel rest
        { me with contents := some (me.contents.getD "" ++ s₁ ++ s₂) } := by
  refine ⟨rfl, fun h => ?_, rfl⟩
  rw [stepChildren_chars, h]
  exact rfl

/-- C4 witness: concrete accumulation starting from absent contents. -/
theorem claim_C4_text_accumulation_witness :
    parseChildrenF 1 [Except.ok (XmlEvent.characters "worm")] (Element.new "fruit") =
      parseChildrenF 0 [] { Element.new "fruit" with contents := some ("" ++ "worm") } :=
  (claim_C4_text_accumulation 0 "worm" "" "" [] (Element.new "fruit")).2.1 rfl

/-- C5: a `CData` event with payload `s` appends exactly
`"<![CDATA[" ++ s ++ "]]>"` to the open element's contents, after any
text already accumulated, initializing absent contents to empty. -/
theorem claim_C5_cdata_accumulation (fuel : Nat) (s t : String) (rest : List REvent)
    (me : Element) :
    parseChildrenF (fuel + 1) (Except.ok (XmlEvent.cdata s) :: rest) me =
      parseChildrenF fuel rest
        { me with contents := some (me.contents.getD "" ++ "<![CDATA[" ++ s ++ "]]>") } ∧
    (me.contents = some t →
      parseChildrenF (fuel + 1) (Except.ok (XmlEvent.cdata s) :: rest) me =
        parseChildrenF fuel rest
          { me with contents := some (t ++ "<![CDATA[" ++ s ++ "]]>") }) ∧
    (me.contents = none →
      parseChildrenF (fuel + 1) (Except.ok (XmlEvent.cdata s) :: rest) me =
        parseChildrenF fuel rest
          { me with contents := some ("" ++ "<![CDATA[" ++ s ++ "]]>") }) := by
  refine ⟨rfl, fun h => ?_, fun h => ?_⟩ <;> rw [stepChildren_cdata, h] <;> exact rfl

/-- C5 witness: concrete CDATA wrapping after existing text and from
absent contents. -/
theorem claim_C5_cdata_accumulation_witness :
    (parseChildrenF 1 [Except.ok (XmlEvent.cdata "d")]
        { Element.new "r" with contents := some "t" } =
      parseChildrenF 0 []
        { Element.new "r" with contents := some ("t" ++ "<![CDATA[" ++ "d" ++ "]]>") }) ∧
    (parseChildrenF 1 [Except.ok (XmlEvent.cdata "d")] (Element.new "r") =
      parseChildrenF 0 []
        { Element.new "r" with contents := some ("" ++ "<![CDATA[" ++ "d" ++ "]]>") }) :=
  ⟨(claim_C5_cdata_accumulation 0 "d" "t" []
      { Element.new "r" with contents := some "t" }).2.1 rfl,
   (claim_C5_cdata_accumulation 0 "d" "t" [] (Element.new "r")).2.2 rfl⟩

/-- C6: `Whitespace` and `Comment` events are dropped: parsing a stream
equals parsing the same stream with all of them removed. -/
theorem claim_C6_whitespace_comment_dropped (es : List REvent) :
    Document.parse (es.filter keptEvent) = Document.parse es :=
  parse_filter_eq es

/-- C7: a lexical error yielded by the event source is returned verbatim
by both parsing loops, and every error the parse returns is either an
error item of the stream or the source's end-of-stream error — nothing
is wrapped or reinterpreted (and an `err` result carries no document). -/
theorem claim_C7_error_propagation (fuel : Nat) (e : XmlError) (rest es : List REvent)
    (me : Element) (doc : Document) :
    parseChildrenF (fuel + 1) (Except.error e :: rest) me = PResult.err e ∧
    parseLoopF (fuel + 1) (Except.error e :: rest) doc = PResult.err e ∧
    ∀ e' : XmlError, Document.parse es = PResult.err e' →
      Except.error e' ∈ es ∨ e' = eofError :=
  ⟨stepChildren_err fuel e rest me, stepLoop_err fuel e rest doc,
   fun e' h => parseLoopF_err_mem es.length es Document.new e' h⟩

/-- C7 witness: a concrete stream whose only item is an error. -/
theorem claim_C7_error_propagation_witness :
    Except.error { msg := "boom" } ∈
        ([Except.error { msg := "boom" }] : List REvent) ∨
      ({ msg := "boom" } : XmlError) = eofError :=
  (claim_C7_error_propagation 0 { msg := "boom" } [] [Except.error { msg := "boom" }]
      Element.default Document.default).2.2 { msg := "boom" } rfl


/-- C8: the attribute map the assembler builds from a `StartElement`
event stores each attribute under its qualified key (`prefix:local` when
prefixed, else `local`, via `qualify`), the stored value for a key is
that of the last attribute (in arrival order) projecting to it, and the
parsed element's attributes are exactly `buildAttrMap` of the event's
attributes. -/
theorem claim_C8_attribute_map_last_wins (attrs : List OwnedAttribute) (k : String)
    (n : OwnedName) (v : XmlVersion) (enc : String) :
    List.lookup k (buildAttrMap attrs) = lastAttrValue attrs k ∧
    Document.parse
        [Except.ok (XmlEvent.startDocument v enc),
         Except.ok (XmlEvent.startElement n attrs),
         Except.ok (XmlEvent.endElement n),
         Except.ok XmlEvent.endDocument] =
      PResult.ok { version := v, encoding := enc, root := some (mkElem n attrs) } := by
  refine ⟨lookup_buildAttrMap attrs k, ?_⟩
  show parseLoopF 4 _ Document.new = _
  rw [stepLoop_startDoc, stepLoop_start, stepChildren_end, if_pos ⟨rfl, rfl⟩]
  exact rfl

/-- Helper for C9: after two complete top-level element blocks, the loop
returns the document whose root is the second block's element. -/
theorem parseLoopF_two_roots (fuel : Nat)
    (n₁ : OwnedName) (a₁ : List OwnedAttribute) (pre₁ : List REvent) (e₁ : Element)
    (n₂ : OwnedName) (a₂ : List OwnedAttribute) (pre₂ : List REvent) (e₂ : Element)
    (doc : Document)
    (h₁ : ∀ (tail : List REvent) (f : Nat), (pre₁ ++ tail).length ≤ f →
      parseChildrenF f (pre₁ ++ tail) (mkElem n₁ a₁) = PResult.ok (e₁, tail))
    (h₂ : ∀ (tail : List REvent) (f : Nat), (pre₂ ++ tail).length ≤ f →
      parseChildrenF f (pre₂ ++ tail) (mkElem n₂ a₂) = PResult.ok (e₂, tail))
    (hf : (Except.ok (XmlEvent.startElement n₁ a₁) ::
           (pre₁ ++ Except.ok (XmlEvent.startElement n₂ a₂) ::
            (pre₂ ++ [Except.ok XmlEvent.endDocument]))).length ≤ fuel) :
    parseLoopF fuel
        (Except.ok (XmlEvent.startElement n₁ a₁) ::
         (pre₁ ++ Except.ok (XmlEvent.startElement n₂ a₂) ::
          (pre₂ ++ [Except.ok XmlEvent.endDocument]))) doc =
      PResult.ok { doc with root := some e₂ } := by
  simp only [List.length_cons, List.length_append, List.length_nil] at hf
  match fuel, hf with
  | f + 1, hf =>
    rw [stepLoop_start,
        h₁ (Except.ok (XmlEvent.startElement n₂ a₂) :: (pre₂ ++ [Except.ok XmlEvent.endDocument]))
          f (by simp only [List.length_append, List.length_cons, List.length_nil]; omega)]
    dsimp only
    match f, hf with
    | f' + 1, hf =>
      rw [stepLoop_start,
          h₂ [Except.ok XmlEvent.endDocument] f'
            (by simp only [List.length_append, List.length_cons, List.length_nil]; omega)]
      dsimp only
      match f', hf with
      | f'' + 1, hf =>
        rw [stepLoop_endDoc]


/-- C9: when the top-level stream holds two complete element blocks
before `EndDocument`, the parse succeeds and the returned document's
root is the element assembled from the second block — the first root is
silently overwritten, not an error. -/
theorem claim_C9_last_root_wins
    (v : XmlVersion) (enc : String)
    (n₁ : OwnedName) (a₁ : List OwnedAttribute) (pre₁ : List REvent) (e₁ : Element)
    (n₂ : OwnedName) (a₂ : List OwnedAttribute) (pre₂ : List REvent) (e₂ : Element)
    (h₁ : ∀ (tail : List REvent) (f : Nat), (pre₁ ++ tail).length ≤ f →
      parseChildrenF f (pre₁ ++ tail) (mkElem n₁ a₁) = PResult.ok (e₁, tail))
    (h₂ : ∀ (tail : List REvent) (f : Nat), (pre₂ ++ tail).length ≤ f →
      parseChildrenF f (pre₂ ++ tail) (mkElem n₂ a₂) = PResult.ok (e₂, tail)) :
    Document.parse
        (Except.ok (XmlEvent.startDocument v enc) ::
         Except.ok (XmlEvent.startElement n₁ a₁) ::
         (pre₁ ++ Except.ok (XmlEvent.startElement n₂ a₂) ::
          (pre₂ ++ [Except.ok XmlEvent.endDocument]))) =
      PResult.ok { version := v, encoding := enc, root := some e₂ } := by
  unfold Document.parse
  rw [List.length_cons, stepLoop_startDoc]
  exact parseLoopF_two_roots _ n₁ a₁ pre₁ e₁ n₂ a₂ pre₂ e₂ _ h₁ h₂ (le_refl _)

/-- C9 witness: two concrete empty top-level elements `<a/><b/>`; the
root is `b`. -/
theorem claim_C9_last_root_wins_witness :
    Document.parse
        (Except.ok (XmlEvent.startDocument XmlVersion.Version10 "UTF-8") ::
         Except.ok (XmlEvent.startElement ⟨none, "a"⟩ []) ::
         ([Except.ok (XmlEvent.endElement ⟨none, "a"⟩)] ++
          Except.ok (XmlEvent.startElement ⟨none, "b"⟩ []) ::
          ([Except.ok (XmlEvent.endElement ⟨none, "b"⟩)] ++
           [Except.ok XmlEvent.endDocument]))) =
      PResult.ok { version := XmlVersion.Version10, encoding := "UTF-8",
                   root := some (mkElem ⟨none, "b"⟩ []) } :=
  claim_C9_last_root_wins XmlVersion.Version10 "UTF-8"
    ⟨none, "a"⟩ [] [Except.ok (XmlEvent.endElement ⟨none, "a"⟩)] (mkElem ⟨none, "a"⟩ [])
    ⟨none, "b"⟩ [] [Except.ok (XmlEvent.endElement ⟨none, "b"⟩)] (mkElem ⟨none, "b"⟩ [])
    (fun tail f hle => by
      match f, hle with
      | 0, hle => exact absurd hle (by simp [List.length_append])
      | f + 1, _ => rw [List.singleton_append, stepChildren_end, if_pos ⟨rfl, rfl⟩])
    (fun tail f hle => by
      match f, hle with
      | 0, hle => exact absurd hle (by simp [List.length_append])
      | f + 1, _ => rw [List.singleton_append, stepChildren_end, if_pos ⟨rfl, rfl⟩])

end Treexml
